import Mathlib

/-!
Verification of the e-paper image codec of the Smart Dashboard Server:
palette quantization, Floyd-Steinberg dithering, resolution negotiation,
nibble packing/unpacking, decoding and color-usage statistics.

The definitions are a shallow embedding of
`Server/utils/png_to_epaper_converter.py` (class `EpaperColorConverter`)
and `Server/utils/epaper_visualizer.py` (class `EpaperVisualizer`).
Machine `uint8` pixel data is modelled by integer triples; the `float32`
working raster of the dither engine is modelled by rational triples.
-/

namespace SmartDashboard

/-- An RGB pixel as stored in the 8-bit image arrays (each channel 0-255). -/
abbrev Pix := ℤ × ℤ × ℤ

/-- An RGB value of the floating-point working raster used while dithering. -/
abbrev RGBq := ℚ × ℚ × ℚ

/-- The 7-color e-paper palette (`PALETTE` in both converter and visualizer;
the two tables in the source are byte-identical). -/
def PALETTE : List Pix :=
  [(0, 0, 0),
   (255, 255, 255),
   (67, 138, 28),
   (100, 64, 255),
   (191, 0, 0),
   (255, 243, 56),
   (232, 126, 0),
   (194, 164, 244)]

/-- `SUPPORTED_RESOLUTIONS` from the source, in its fixed order. -/
def SUPPORTED_RESOLUTIONS : List (Nat × Nat) := [(800, 480), (640, 400), (600, 448)]

/-- Interpret an integer pixel as a floating-point working value
(`img_array.astype(np.float32)`). -/
def toQ (p : Pix) : RGBq := ((p.1 : ℚ), (p.2.1 : ℚ), (p.2.2 : ℚ))

/-- Palette entry `i` as a working-raster value (`np.array(self.PALETTE[i],
dtype=np.float32)`). -/
def paletteQ (i : Nat) : RGBq := toQ (PALETTE.getD i (0, 0, 0))

/-- Squared Euclidean distance between two integer pixels
(`np.sum((self.palette_array - rgb_array) ** 2)`). -/
def sqDist (a b : Pix) : ℤ :=
  (a.1 - b.1) ^ 2 + (a.2.1 - b.2.1) ^ 2 + (a.2.2 - b.2.2) ^ 2

/-- Squared Euclidean distance on the floating-point working raster. -/
def sqDistQ (a b : RGBq) : ℚ :=
  (a.1 - b.1) ^ 2 + (a.2.1 - b.2.1) ^ 2 + (a.2.2 - b.2.2) ^ 2

/-- Scan of `np.argmin`: index of the first strict minimum.  `i` is the index
of the head of the remaining list, `best`/`bestd` the current argmin and its
value. -/
def argminAux {α : Type} [LinearOrder α] : List α → α → Nat → Nat → Nat
  | [], _, _, best => best
  | d :: rest, bestd, i, best =>
      if d < bestd then argminAux rest d (i + 1) i
      else argminAux rest bestd (i + 1) best

/-- `np.argmin`: index of the first occurrence of the minimum (0 on `[]`). -/
def argmin {α : Type} [LinearOrder α] : List α → Nat
  | [] => 0
  | d :: rest => argminAux rest d 1 0

/-- `EpaperColorConverter.find_closest_color` on an integer pixel (the form
used by the packing pass, which reads the `uint8` dithered array). -/
def find_closest_color (c : Pix) : Nat :=
  argmin (PALETTE.map (fun p => sqDist p c))

/-- `EpaperColorConverter.find_closest_color` on a floating-point working
value (the form used inside the dithering loop). -/
def find_closest_colorQ (c : RGBq) : Nat :=
  argmin (PALETTE.map (fun p => sqDistQ (toQ p) c))

/-! ### Nibble packing (encoder) and unpacking (decoder) -/

/-- The packing loop of `convert_png_to_epaper` on one row of palette
indices: two pixels per byte, `(color1 << 4) | color2`, and if the width is
odd the final byte duplicates the last index in both nibbles. -/
def packPairs : List Nat → List Nat
  | c1 :: c2 :: rest => Nat.lor (c1 <<< 4) c2 :: packPairs rest
  | [c1] => [Nat.lor (c1 <<< 4) c1]
  | [] => []

/-- The full packing loop: rows are processed top to bottom, the packed
bytes of all rows are concatenated in order (`byte_index` just increments). -/
def packRaster (rows : List (List Nat)) : List Nat :=
  (rows.map packPairs).flatten

/-- The visualizer's defensive index check: a nibble that is not a valid
palette index (`color_idx >= len(self.PALETTE)`) is replaced by 0 (Black). -/
def fixIdx (i : Nat) : Nat :=
  if i ≥ PALETTE.length then 0 else i

/-- One byte of the decoder's unpacking loop, at the palette-index level:
`(packed_byte >> 4) & 0x0F` then `packed_byte & 0x0F`, each run through the
defensive index check. -/
def unpackByteIndices (b : Nat) : List Nat :=
  [fixIdx ((b >>> 4) &&& 15), fixIdx (b &&& 15)]

/-- The decoder's unpacking loop at the palette-index level: each byte yields
two indices, in byte order. -/
def unpackBuffer (buf : List Nat) : List Nat :=
  (buf.map unpackByteIndices).flatten

/-! ### Basic facts about the quantizer and the nibble codec -/

theorem argminAux_lt {α : Type} [LinearOrder α] :
    ∀ (l : List α) (bestd : α) (i best n : Nat), best < n → i + l.length ≤ n →
      argminAux l bestd i best < n
  | [], _, _, _, _, hb, _ => hb
  | d :: rest, bestd, i, best, n, hb, hn => by
      simp only [argminAux]
      split
      · exact argminAux_lt rest d (i + 1) i n (by simp at hn; omega) (by simp at hn; omega)
      · exact argminAux_lt rest bestd (i + 1) best n hb (by simp at hn; omega)

theorem argmin_lt_length {α : Type} [LinearOrder α] (l : List α) (h : l ≠ []) :
    argmin l < l.length := by
  match l with
  | [] => exact absurd rfl h
  | d :: rest =>
      simp only [argmin, List.length_cons]
      exact argminAux_lt rest d 1 0 (rest.length + 1) (by omega) (by omega)

theorem find_closest_colorQ_lt (c : RGBq) : find_closest_colorQ c < 8 := by
  have h := argmin_lt_length (PALETTE.map (fun p => sqDistQ (toQ p) c)) (by simp [PALETTE])
  simpa [find_closest_colorQ, PALETTE] using h

theorem find_closest_color_lt (c : Pix) : find_closest_color c < 8 := by
  have h := argmin_lt_length (PALETTE.map (fun p => sqDist p c)) (by simp [PALETTE])
  simpa [find_closest_color, PALETTE] using h

/-- Quantizing a palette color returns its own index. -/
theorem fcc_palette_fixed : ∀ i < 8, find_closest_color (PALETTE.getD i (0, 0, 0)) = i := by
  decide

theorem argminAux_map {α β : Type} [LinearOrder α] [LinearOrder β] (f : α → β)
    (hf : ∀ a b, f a < f b ↔ a < b) :
    ∀ (l : List α) (d : α) (i best : Nat),
      argminAux (l.map f) (f d) i best = argminAux l d i best
  | [], _, _, _ => rfl
  | a :: rest, d, i, best => by
      simp only [List.map_cons, argminAux, hf]
      split
      · exact argminAux_map f hf rest a (i + 1) i
      · exact argminAux_map f hf rest d (i + 1) best

theorem argmin_map {α β : Type} [LinearOrder α] [LinearOrder β] (f : α → β)
    (hf : ∀ a b, f a < f b ↔ a < b) (l : List α) :
    argmin (l.map f) = argmin l := by
  match l with
  | [] => rfl
  | d :: rest =>
      simp only [List.map_cons, argmin]
      exact argminAux_map f hf rest d 1 0

theorem sqDistQ_toQ (a b : Pix) : sqDistQ (toQ a) (toQ b) = ((sqDist a b : ℤ) : ℚ) := by
  simp only [sqDistQ, sqDist, toQ]
  push_cast
  ring

/-- The floating-point and integer quantizers agree on integer pixels: the
dither engine's lookup and the packing pass's lookup are the same function on
the values both ever see. -/
theorem find_closest_colorQ_toQ (p : Pix) :
    find_closest_colorQ (toQ p) = find_closest_color p := by
  unfold find_closest_colorQ find_closest_color
  have hmap : PALETTE.map (fun q => sqDistQ (toQ q) (toQ p))
      = (PALETTE.map (fun q => sqDist q p)).map (fun z : ℤ => (z : ℚ)) := by
    simp only [List.map_map, Function.comp]
    exact List.map_congr_left (fun q _ => sqDistQ_toQ q p)
  rw [hmap, argmin_map (fun z : ℤ => (z : ℚ)) (fun a b => Int.cast_lt)]

/-- Quantizing a palette color on the floating-point raster returns its own
index. -/
theorem fccQ_palette_fixed : ∀ i < 8, find_closest_colorQ (paletteQ i) = i := by
  intro i hi
  have h : paletteQ i = toQ (PALETTE.getD i (0, 0, 0)) := rfl
  rw [h, find_closest_colorQ_toQ]
  exact fcc_palette_fixed i hi

/-- Unpacking inverts packing at the level of one byte, for valid indices. -/
theorem unpack_byte_of_pack : ∀ a < 8, ∀ b < 8,
    unpackByteIndices (Nat.lor (a <<< 4) b) = [a, b] := by
  decide

/-- High/low nibble extraction of a packed byte, for valid indices. -/
theorem nibbles_of_pack : ∀ a < 8, ∀ b < 8,
    ((Nat.lor (a <<< 4) b) >>> 4) &&& 15 = a ∧ (Nat.lor (a <<< 4) b) &&& 15 = b := by
  decide

theorem packPairs_length : ∀ l : List Nat, (packPairs l).length = (l.length + 1) / 2
  | [] => by simp [packPairs]
  | [c] => by simp [packPairs]
  | c1 :: c2 :: rest => by
      simp only [packPairs, List.length_cons, packPairs_length rest]
      omega

/-! ### The Floyd-Steinberg dither engine

`apply_floyd_steinberg_dithering` walks the raster in row-major order.  The
working raster is modelled as a total function from coordinates to rational
RGB values; the nested `for` loops become nested left folds over
`List.range`. -/

/-- The floating-point working raster (`dithered = img_array.astype(np.float32)`). -/
abbrev Img := Nat → Nat → RGBq

/-- Componentwise sum of two working-raster values. -/
def addV (a b : RGBq) : RGBq := (a.1 + b.1, a.2.1 + b.2.1, a.2.2 + b.2.2)

/-- Componentwise difference (`error = old_pixel - new_pixel`). -/
def subV (a b : RGBq) : RGBq := (a.1 - b.1, a.2.1 - b.2.1, a.2.2 - b.2.2)

/-- Scalar multiple of a working-raster value (`error * (7/16)` etc.). -/
def scale (c : ℚ) (v : RGBq) : RGBq := (c * v.1, c * v.2.1, c * v.2.2)

/-- Point update of the working raster (`dithered[y, x] = new_pixel`). -/
def upd (img : Img) (y x : Nat) (v : RGBq) : Img :=
  fun y' x' => if y' = y ∧ x' = x then v else img y' x'

/-- Accumulating update of the working raster (`dithered[y, x] += e`). -/
def addAt (img : Img) (y x : Nat) (e : RGBq) : Img :=
  fun y' x' => if y' = y ∧ x' = x then addV (img y' x') e else img y' x'

/-- One iteration of the dithering loop body at position `(y, x)`: quantize
the current pixel, overwrite it with the chosen palette color, and distribute
the quantization error to the four in-range neighbors with the
Floyd-Steinberg weights 7/16, 3/16, 5/16, 1/16. -/
def ditherStep (w h : Nat) (img : Img) (y x : Nat) : Img :=
  let old := img y x
  let np := paletteQ (find_closest_colorQ old)
  let err := subV old np
  let img1 := upd img y x np
  let img2 := if x + 1 < w then addAt img1 y (x + 1) (scale (7/16) err) else img1
  if y + 1 < h then
    let img3 := if 1 ≤ x then addAt img2 (y + 1) (x - 1) (scale (3/16) err) else img2
    let img4 := addAt img3 (y + 1) x (scale (5/16) err)
    if x + 1 < w then addAt img4 (y + 1) (x + 1) (scale (1/16) err) else img4
  else img2

/-- The inner loop of the dither engine: one row, columns taken from `xs`. -/
def ditherRow (w h y : Nat) (img : Img) (xs : List Nat) : Img :=
  xs.foldl (fun a x => ditherStep w h a y x) img

/-- Several outer-loop iterations of the dither engine, rows taken from `ys`. -/
def ditherRows (w h : Nat) (img : Img) (ys : List Nat) : Img :=
  ys.foldl (fun a y => ditherRow w h y a (List.range w)) img

/-- `EpaperColorConverter.apply_floyd_steinberg_dithering`, before the final
clamp and `uint8` conversion: the full row-major double loop. -/
def apply_floyd_steinberg_dithering (w h : Nat) (img : Img) : Img :=
  ditherRows w h img (List.range h)

/-- The state of the working raster just before the loop body runs at
position `(y, x)`: all rows above `y` and the first `x` columns of row `y`
have been processed. -/
def ditherUpTo (w h : Nat) (img : Img) (y x : Nat) : Img :=
  ditherRow w h y (ditherRows w h img (List.range y)) (List.range x)

/-- The clamp applied once after the whole loop
(`np.clip(dithered, 0, 255)`), channelwise. -/
def clampQ (q : ℚ) : ℚ := max 0 (min q 255)

/-- Conversion of one working-raster value to an 8-bit pixel: the final
`np.clip(dithered, 0, 255)` followed by `astype(np.uint8)` (truncation; on
the clamped nonnegative range this is the floor). -/
def outPix (v : RGBq) : Pix := (⌊clampQ v.1⌋, ⌊clampQ v.2.1⌋, ⌊clampQ v.2.2⌋)

/-! ### Positions a loop iteration can write to -/

theorem upd_at {img : Img} {y x : Nat} {v : RGBq} : upd img y x v y x = v := by
  unfold upd
  exact if_pos ⟨rfl, rfl⟩

theorem upd_ne {img : Img} {y x : Nat} {v : RGBq} {y' x' : Nat}
    (h : ¬(y' = y ∧ x' = x)) : upd img y x v y' x' = img y' x' := by
  unfold upd
  exact if_neg h

theorem addAt_ne {img : Img} {y x : Nat} {e : RGBq} {y' x' : Nat}
    (h : ¬(y' = y ∧ x' = x)) : addAt img y x e y' x' = img y' x' := by
  unfold addAt
  exact if_neg h

theorem addAt_at {img : Img} {y x : Nat} {e : RGBq} :
    addAt img y x e y x = addV (img y x) e := by
  unfold addAt
  exact if_pos ⟨rfl, rfl⟩

/-- A step at `(y, x)` leaves every position strictly earlier in row-major
order unchanged: the error diffusion only writes to `(y, x+1)` and to row
`y+1`. -/
theorem ditherStep_earlier (w h : Nat) (img : Img) (y x y' x' : Nat)
    (hlt : y' < y ∨ (y' = y ∧ x' < x)) :
    ditherStep w h img y x y' x' = img y' x' := by
  unfold ditherStep
  split_ifs <;> first
    | exact upd_ne (by omega)
    | exact (addAt_ne (by omega)).trans (upd_ne (by omega))
    | exact (addAt_ne (by omega)).trans ((addAt_ne (by omega)).trans (upd_ne (by omega)))
    | exact (addAt_ne (by omega)).trans ((addAt_ne (by omega)).trans
        ((addAt_ne (by omega)).trans (upd_ne (by omega))))
    | exact (addAt_ne (by omega)).trans ((addAt_ne (by omega)).trans
        ((addAt_ne (by omega)).trans ((addAt_ne (by omega)).trans (upd_ne (by omega)))))

/-- A step at `(y, x)` writes the chosen palette color at `(y, x)`; the error
diffusion never touches the pixel just written. -/
theorem ditherStep_self (w h : Nat) (img : Img) (y x : Nat) :
    ditherStep w h img y x y x = paletteQ (find_closest_colorQ (img y x)) := by
  unfold ditherStep
  split_ifs <;> first
    | exact upd_at
    | exact (addAt_ne (by omega)).trans upd_at
    | exact (addAt_ne (by omega)).trans ((addAt_ne (by omega)).trans upd_at)
    | exact (addAt_ne (by omega)).trans ((addAt_ne (by omega)).trans
        ((addAt_ne (by omega)).trans upd_at))
    | exact (addAt_ne (by omega)).trans ((addAt_ne (by omega)).trans
        ((addAt_ne (by omega)).trans ((addAt_ne (by omega)).trans upd_at)))

/-- An iteration of the inner loop at row `y`, column `x'` with `x < x'`
leaves `(y, x)` unchanged; so do all iterations at rows below `y`. -/
theorem ditherRow_earlier (w h y : Nat) (img : Img) (yr x : Nat)
    (hy : y < yr ∨ y = yr) :
    ∀ (xs : List Nat), (∀ c ∈ xs, y < yr ∨ x < c) →
      ditherRow w h yr img xs y x = img y x := by
  intro xs
  induction xs generalizing img with
  | nil => intro _; rfl
  | cons c rest ih =>
      intro hc
      simp only [ditherRow, List.foldl_cons]
      rw [show (List.foldl (fun a x => ditherStep w h a yr x)
            (ditherStep w h img yr c) rest) = ditherRow w h yr (ditherStep w h img yr c) rest
          from rfl]
      rw [ih (ditherStep w h img yr c) (fun d hd => hc d (List.mem_cons_of_mem c hd))]
      exact ditherStep_earlier w h img yr c y x
        (by rcases hc c (List.mem_cons_self c rest) with h1 | h1 <;> omega)

theorem ditherRow_cons (w h y : Nat) (img : Img) (c : Nat) (rest : List Nat) :
    ditherRow w h y img (c :: rest) = ditherRow w h y (ditherStep w h img y c) rest := rfl

theorem ditherRow_append (w h y : Nat) (img : Img) (l1 l2 : List Nat) :
    ditherRow w h y img (l1 ++ l2) = ditherRow w h y (ditherRow w h y img l1) l2 :=
  List.foldl_append _ _ l1 l2

theorem ditherRows_cons (w h : Nat) (img : Img) (r : Nat) (rest : List Nat) :
    ditherRows w h img (r :: rest)
      = ditherRows w h (ditherRow w h r img (List.range w)) rest := rfl

theorem ditherRows_append (w h : Nat) (img : Img) (l1 l2 : List Nat) :
    ditherRows w h img (l1 ++ l2) = ditherRows w h (ditherRows w h img l1) l2 :=
  List.foldl_append _ _ l1 l2

/-- Iterations of the outer loop at rows strictly below row `y` leave
position `(y, x)` unchanged. -/
theorem ditherRows_earlier (w h : Nat) (y x : Nat) :
    ∀ (ys : List Nat) (img : Img), (∀ r ∈ ys, y < r) →
      ditherRows w h img ys y x = img y x := by
  intro ys
  induction ys with
  | nil => intro img _; rfl
  | cons r rest ih =>
      intro img hr
      rw [ditherRows_cons,
          ih (ditherRow w h r img (List.range w))
            (fun d hd => hr d (List.mem_cons_of_mem r hd))]
      exact ditherRow_earlier w h y img r x
        (Or.inl (hr r (List.mem_cons_self r rest))) (List.range w)
        (fun c _ => Or.inl (hr r (List.mem_cons_self r rest)))

theorem range_split_at (n k : Nat) (hk : k < n) :
    List.range n = List.range k ++ (k :: List.range' (k + 1) (n - k - 1)) := by
  have h2 : List.range' k (n - k) = k :: List.range' (k + 1) (n - k - 1) := by
    rw [show n - k = (n - k - 1) + 1 from by omega]
    exact List.range'_succ k (n - k - 1) 1
  have h1 := List.range'_append 0 k (n - k) 1
  simp only [Nat.one_mul, Nat.zero_add] at h1
  rw [show n - k + k = n from by omega] at h1
  rw [List.range_eq_range', List.range_eq_range', ← h1, h2]

/-- Decomposition of the full dither run at one raster position: the final
value at `(y, x)` is the palette color chosen when the loop body visited
`(y, x)`, i.e. the quantization of the working value the loop read there.
Later iterations never write to `(y, x)` again. -/
theorem apply_fs_at (w h : Nat) (img : Img) (y x : Nat) (hy : y < h) (hx : x < w) :
    apply_floyd_steinberg_dithering w h img y x
      = paletteQ (find_closest_colorQ (ditherUpTo w h img y x y x)) := by
  unfold apply_floyd_steinberg_dithering
  rw [range_split_at h y hy, ditherRows_append, ditherRows_cons]
  rw [ditherRows_earlier w h y x (List.range' (y + 1) (h - y - 1))
      (ditherRow w h y (ditherRows w h img (List.range y)) (List.range w))
      (fun r hr => by rw [List.mem_range'_1] at hr; omega)]
  rw [range_split_at w x hx, ditherRow_append, ditherRow_cons]
  rw [ditherRow_earlier w h y
      (ditherStep w h (ditherRow w h y (ditherRows w h img (List.range y)) (List.range x)) y x)
      y x (Or.inr rfl) (List.range' (x + 1) (w - x - 1))
      (fun c hc => by rw [List.mem_range'_1] at hc; omega)]
  rw [ditherStep_self]
  rfl

/-- Every pixel of the dither engine's output (within the raster) is exactly
one of the 8 palette colors. -/
theorem apply_fs_isPalette (w h : Nat) (img : Img) (y x : Nat) (hy : y < h) (hx : x < w) :
    ∃ j, j < 8 ∧ apply_floyd_steinberg_dithering w h img y x = paletteQ j :=
  ⟨find_closest_colorQ (ditherUpTo w h img y x y x),
   find_closest_colorQ_lt _, apply_fs_at w h img y x hy hx⟩

/-! ### Dithering a raster that is already at an exact palette color -/

theorem subV_self (v : RGBq) : subV v v = (0, 0, 0) := by
  simp [subV]

theorem scale_zero (c : ℚ) : scale c (0, 0, 0) = (0, 0, 0) := by
  simp [scale]

theorem addAt_zero (img : Img) (y x : Nat) : addAt img y x (0, 0, 0) = img := by
  funext y' x'
  unfold addAt
  split <;> simp [addV]

theorem upd_self_val (img : Img) (y x : Nat) : upd img y x (img y x) = img := by
  funext y' x'
  unfold upd
  split
  · rename_i hp
    rw [hp.1, hp.2]
  · rfl

/-- If the pixel at `(y, x)` quantizes back to itself (it already is an exact
palette color), the loop body at `(y, x)` changes nothing: the quantization
error is zero everywhere it is distributed. -/
theorem ditherStep_fixed (w h : Nat) (img : Img) (y x : Nat)
    (hfix : paletteQ (find_closest_colorQ (img y x)) = img y x) :
    ditherStep w h img y x = img := by
  simp only [ditherStep, hfix, subV_self, scale_zero, addAt_zero, upd_self_val]
  split_ifs <;> rfl

theorem ditherRow_fixed (w h y : Nat) :
    ∀ (xs : List Nat) (img : Img),
      (∀ c ∈ xs, paletteQ (find_closest_colorQ (img y c)) = img y c) →
      ditherRow w h y img xs = img := by
  intro xs
  induction xs with
  | nil => intro img _; rfl
  | cons c rest ih =>
      intro img hc
      rw [ditherRow_cons, ditherStep_fixed w h img y c (hc c (List.mem_cons_self c rest))]
      exact ih img (fun d hd => hc d (List.mem_cons_of_mem c hd))

theorem ditherRows_fixed (w h : Nat) :
    ∀ (ys : List Nat) (img : Img),
      (∀ r ∈ ys, ∀ c ∈ List.range w, paletteQ (find_closest_colorQ (img r c)) = img r c) →
      ditherRows w h img ys = img := by
  intro ys
  induction ys with
  | nil => intro img _; rfl
  | cons r rest ih =>
      intro img hr
      rw [ditherRows_cons, ditherRow_fixed w h r (List.range w) img
            (hr r (List.mem_cons_self r rest))]
      exact ih img (fun d hd => hr d (List.mem_cons_of_mem r hd))

/-- Dithering a raster whose every in-range pixel is an exact palette color
is the identity: every quantization error is zero. -/
theorem apply_fs_fixed (w h : Nat) (img : Img)
    (hfix : ∀ y x, y < h → x < w → paletteQ (find_closest_colorQ (img y x)) = img y x) :
    apply_floyd_steinberg_dithering w h img = img := by
  unfold apply_floyd_steinberg_dithering
  exact ditherRows_fixed w h (List.range h) img
    (fun r hr c hc => hfix r c (List.mem_range.mp hr) (List.mem_range.mp hc))

/-! ### The final clamp and `uint8` conversion -/

/-- Every channel of every pixel written by the final
`np.clip(dithered, 0, 255).astype(np.uint8)` lies in `[0, 255]`. -/
theorem outPix_range (v : RGBq) :
    (0 ≤ (outPix v).1 ∧ (outPix v).1 ≤ 255) ∧
    (0 ≤ (outPix v).2.1 ∧ (outPix v).2.1 ≤ 255) ∧
    (0 ≤ (outPix v).2.2 ∧ (outPix v).2.2 ≤ 255) := by
  have hc : ∀ q : ℚ, 0 ≤ ⌊clampQ q⌋ ∧ ⌊clampQ q⌋ ≤ 255 := by
    intro q
    constructor
    · exact Int.le_floor.mpr (by simp [clampQ])
    · have h1 : clampQ q ≤ (255 : ℚ) := by
        simp only [clampQ]
        exact max_le (by norm_num) (min_le_right q 255)
      calc ⌊clampQ q⌋ ≤ ⌊(255 : ℚ)⌋ := Int.floor_le_floor h1
        _ = 255 := by norm_num
  exact ⟨hc v.1, hc v.2.1, hc v.2.2⟩

/-- On an integer pixel already in range, the clamp-and-truncate conversion
is the identity. -/
theorem outPix_int (p : Pix) (h1 : 0 ≤ p.1 ∧ p.1 ≤ 255) (h2 : 0 ≤ p.2.1 ∧ p.2.1 ≤ 255)
    (h3 : 0 ≤ p.2.2 ∧ p.2.2 ≤ 255) : outPix (toQ p) = p := by
  have hc : ∀ z : ℤ, 0 ≤ z → z ≤ 255 → ⌊clampQ (z : ℚ)⌋ = z := by
    intro z hz0 hz255
    have hmin : min (z : ℚ) 255 = (z : ℚ) := min_eq_left (by exact_mod_cast hz255)
    have hmax : max 0 (z : ℚ) = (z : ℚ) := max_eq_right (by exact_mod_cast hz0)
    rw [clampQ, hmin, hmax, Int.floor_intCast]
  exact Prod.ext (hc p.1 h1.1 h1.2) (Prod.ext (hc p.2.1 h2.1 h2.2) (hc p.2.2 h3.1 h3.2))

theorem palette_entry_range : ∀ j < 8,
    (0 ≤ (PALETTE.getD j (0, 0, 0)).1 ∧ (PALETTE.getD j (0, 0, 0)).1 ≤ 255) ∧
    (0 ≤ (PALETTE.getD j (0, 0, 0)).2.1 ∧ (PALETTE.getD j (0, 0, 0)).2.1 ≤ 255) ∧
    (0 ≤ (PALETTE.getD j (0, 0, 0)).2.2 ∧ (PALETTE.getD j (0, 0, 0)).2.2 ≤ 255) := by
  decide

/-- Converting an exact palette color through the final clamp and `uint8`
cast yields exactly the integer palette entry. -/
theorem outPix_palette (j : Nat) (hj : j < 8) :
    outPix (paletteQ j) = PALETTE.getD j (0, 0, 0) := by
  have h := palette_entry_range j hj
  exact outPix_int (PALETTE.getD j (0, 0, 0)) h.1 h.2.1 h.2.2

/-- The packing pass's second quantization recovers the index the dithering
pass chose: quantizing the stored `uint8` palette color of any dithering
choice returns that same choice. -/
theorem requantize_choice (v : RGBq) :
    find_closest_color (outPix (paletteQ (find_closest_colorQ v))) = find_closest_colorQ v := by
  have hj := find_closest_colorQ_lt v
  rw [outPix_palette (find_closest_colorQ v) hj]
  exact fcc_palette_fixed (find_closest_colorQ v) hj

/-! ### Resolution negotiation and the full encoder

`validate_image_size` scans `SUPPORTED_RESOLUTIONS` in order: a swapped
match means rotate, a width match means accept (clamping the target height
with a warning when the input is too tall), anything else falls through to
failure.  `convert_png_to_epaper` then rotates, crops, dithers and packs. -/

/-- The loop body of `EpaperColorConverter.validate_image_size`.  `none`
models the `UnsupportedResolution` failure return `(None, None, False)`. -/
def validateAux : List (Nat × Nat) → Nat → Nat → Option (Nat × Nat × Bool)
  | [], _, _ => none
  | (sw, sh) :: rest, w, h =>
      if w = sh ∧ h = sw then some (sw, sh, true)
      else if w = sw then
        if h > sh then some (sw, sh, false) else some (w, h, false)
      else validateAux rest w h

/-- `EpaperColorConverter.validate_image_size`: returns the target
`(width, height)` and whether a 90° clockwise rotation is needed. -/
def validate_image_size (w h : Nat) : Option (Nat × Nat × Bool) :=
  validateAux SUPPORTED_RESOLUTIONS w h

/-- `img.rotate(-90, expand=True)`: rotate an `h×w` grid (a list of `h` rows
of length `w`) 90° clockwise into a `w×h` grid; new row `i`, column `j`
holds old row `h-1-j`, column `i`. -/
def rotateCW (rows : List (List Pix)) : List (List Pix) :=
  (List.range (rows.headD []).length).map (fun i =>
    (List.range rows.length).map (fun j =>
      (rows.getD (rows.length - 1 - j) []).getD i (0, 0, 0)))

/-- `img.crop((0, 0, tw, th))` on a raster at least as large as the target:
keep the first `th` rows and the first `tw` columns. -/
def cropTo (rows : List (List Pix)) (tw th : Nat) : List (List Pix) :=
  (rows.take th).map (fun r => r.take tw)

/-- A raster (list of rows of integer pixels) as a floating-point working
raster (`np.array(img).astype(np.float32)`), 0 outside the raster. -/
def imgOfRows (rows : List (List Pix)) : Img :=
  fun y x => toQ ((rows.getD y []).getD x (0, 0, 0))

/-- `EpaperColorConverter.convert_png_to_epaper` up to the byte buffer it
writes: validate/rotate/crop, Floyd-Steinberg dither, quantize each dithered
pixel, and pack two 4-bit palette indices per byte.  `none` models the
failure return. -/
def convert_png_to_epaper (rows : List (List Pix)) : Option (List Nat) :=
  match validate_image_size (rows.headD []).length rows.length with
  | none => none
  | some (tw, th, rot) =>
      let rows1 := if rot then rotateCW rows else rows
      let rows2 := cropTo rows1 tw th
      let d := apply_floyd_steinberg_dithering tw th (imgOfRows rows2)
      some (packRaster ((List.range th).map (fun y =>
        (List.range tw).map (fun x => find_closest_color (outPix (d y x))))))

/-! ### The decoder (`EpaperVisualizer`) -/

/-- `EpaperVisualizer.detect_resolution`: first supported resolution whose
expected byte count `(w*h)/2` equals the file size. -/
def detectAux : List (Nat × Nat) → Nat → Option (Nat × Nat)
  | [], _ => none
  | (w, h) :: rest, n => if n = w * h / 2 then some (w, h) else detectAux rest n

/-- `EpaperVisualizer.detect_resolution`. -/
def detect_resolution (file_size : Nat) : Option (Nat × Nat) :=
  detectAux SUPPORTED_RESOLUTIONS file_size

/-- Resolution used by `convert_bin_to_png`: the explicit `width`/`height`
arguments when both are given, otherwise auto-detection from the file size. -/
def resolveResolution (n : Nat) (ow oh : Option Nat) : Option (Nat × Nat) :=
  match ow, oh with
  | some w, some h => some (w, h)
  | _, _ => detect_resolution n

/-- The size check of `convert_bin_to_png`: a warning is printed when the
buffer length does not match `(width*height)/2`, but decoding proceeds. -/
def sizeWarning (n w h : Nat) : Bool := n ≠ w * h / 2

/-- One pixel of the decoder's unpacking loop.  Byte `y*ceil(w/2) + x/2`
holds the pixel: its high nibble if `x` is even, its low nibble otherwise;
out-of-range nibbles are replaced by index 0; once the buffer is exhausted
(`byte_index >= len(binary_data)`) pixels keep the zero initialization of
`np.zeros`, which is Black. -/
def unpackPixel (buf : List Nat) (w y x : Nat) : Pix :=
  let k := y * ((w + 1) / 2) + x / 2
  if k < buf.length then
    let b := buf.getD k 0
    let idx := if x % 2 = 0 then (b >>> 4) &&& 15 else b &&& 15
    PALETTE.getD (fixIdx idx) (0, 0, 0)
  else (0, 0, 0)

/-- The decoder's reconstructed raster before the final rotation: `h` rows
of `w` pixels. -/
def unpackRaster (buf : List Nat) (w h : Nat) : List (List Pix) :=
  (List.range h).map (fun y => (List.range w).map (fun x => unpackPixel buf w y x))

/-- `img.rotate(90, expand=True)`: rotate an `h×w` grid 90°
counterclockwise into a `w×h` grid; new row `i`, column `j` holds old row
`j`, column `w-1-i`. -/
def rotateCCW (rows : List (List Pix)) : List (List Pix) :=
  (List.range (rows.headD []).length).map (fun i =>
    (List.range rows.length).map (fun j =>
      (rows.getD j []).getD ((rows.headD []).length - 1 - i) (0, 0, 0)))

/-- `EpaperVisualizer.convert_bin_to_png` up to the raster it saves:
resolve the resolution (failing with `ResolutionUnknown` when auto-detection
finds nothing), unpack, and rotate 90° counterclockwise. -/
def convert_bin_to_png (buf : List Nat) (ow oh : Option Nat) : Option (List (List Pix)) :=
  match resolveResolution buf.length ow oh with
  | none => none
  | some (w, h) => some (rotateCCW (unpackRaster buf w h))

/-! ### Color-usage statistics (`EpaperVisualizer.analyze_binary_file`) -/

/-- Processing one byte of the statistics loop: each of the two nibbles
increments its palette counter, but only if it is a valid palette index. -/
def addByteCounts (counts : Nat → Nat) (b : Nat) : Nat → Nat :=
  let c1 := (b >>> 4) &&& 15
  let c2 := b &&& 15
  let k1 := if c1 < PALETTE.length then (fun j => if j = c1 then counts j + 1 else counts j)
            else counts
  if c2 < PALETTE.length then (fun j => if j = c2 then k1 j + 1 else k1 j) else k1

/-- The per-color pixel counts of `analyze_binary_file`. -/
def colorCounts (buf : List Nat) : Nat → Nat :=
  buf.foldl addByteCounts (fun _ => 0)

/-- `total_pixels = sum(color_counts)`. -/
def totalPixels (buf : List Nat) : Nat :=
  ∑ i in Finset.range PALETTE.length, colorCounts buf i

/-- The sum of the percentages reported by `analyze_binary_file` (one
percentage per color with a nonzero count, each `count/total_pixels*100`),
in exact arithmetic. -/
def percentageSum (buf : List Nat) : ℚ :=
  ∑ i in Finset.range PALETTE.length,
    if 0 < colorCounts buf i then (colorCounts buf i : ℚ) / (totalPixels buf : ℚ) * 100 else 0

/-! ### Packing and unpacking are inverse on index sequences -/

theorem packPairs_append_even : ∀ (l m : List Nat), l.length % 2 = 0 →
    packPairs (l ++ m) = packPairs l ++ packPairs m
  | [], m, _ => rfl
  | [c], _, h => by simp at h
  | c1 :: c2 :: rest, m, h => by
      have hr : rest.length % 2 = 0 := by
        simp only [List.length_cons] at h
        omega
      simp only [List.cons_append, packPairs]
      rw [show rest.append m = rest ++ m from rfl, packPairs_append_even rest m hr]

theorem unpackBuffer_cons (b : Nat) (rest : List Nat) :
    unpackBuffer (b :: rest) = unpackByteIndices b ++ unpackBuffer rest := rfl

theorem unpack_packPairs : ∀ l : List Nat, (∀ c ∈ l, c < 8) → l.length % 2 = 0 →
    unpackBuffer (packPairs l) = l
  | [], _, _ => rfl
  | [c], _, h => by simp at h
  | c1 :: c2 :: rest, hc, h => by
      have h1 : c1 < 8 := hc c1 (by simp)
      have h2 : c2 < 8 := hc c2 (by simp)
      have hr : rest.length % 2 = 0 := by
        simp only [List.length_cons] at h
        omega
      simp only [packPairs, unpackBuffer_cons, unpack_byte_of_pack c1 h1 c2 h2,
        unpack_packPairs rest (fun c hcr => hc c (by simp [hcr])) hr]
      try rfl

theorem packPairs_nibbles : ∀ (l : List Nat) (i : Nat), (∀ c ∈ l, c < 8) →
    2 * i + 1 < l.length →
    (((packPairs l).getD i 0) >>> 4) &&& 15 = l.getD (2 * i) 0 ∧
    ((packPairs l).getD i 0) &&& 15 = l.getD (2 * i + 1) 0
  | [], _, _, hl => by simp at hl
  | [c], i, _, hl => by simp only [List.length_singleton] at hl; omega
  | c1 :: c2 :: rest, 0, hc, _ => by
      have h := nibbles_of_pack c1 (hc c1 (by simp)) c2 (hc c2 (by simp))
      simpa [packPairs] using h
  | c1 :: c2 :: rest, (i + 1), hc, hl => by
      have hlt : 2 * i + 1 < rest.length := by
        simp only [List.length_cons] at hl
        omega
      have ih := packPairs_nibbles rest i (fun c hcr => hc c (by simp [hcr])) hlt
      have e1 : (c1 :: c2 :: rest).getD (2 * (i + 1)) 0 = rest.getD (2 * i) 0 := by
        rw [show 2 * (i + 1) = 2 * i + 1 + 1 from by ring]
        simp [List.getD_cons_succ]
      have e2 : (c1 :: c2 :: rest).getD (2 * (i + 1) + 1) 0 = rest.getD (2 * i + 1) 0 := by
        rw [show 2 * (i + 1) + 1 = 2 * i + 1 + 1 + 1 from by ring]
        simp [List.getD_cons_succ]
      rw [e1, e2]
      simpa [packPairs] using ih

theorem packRaster_cons (r : List Nat) (rest : List (List Nat)) :
    packRaster (r :: rest) = packPairs r ++ packRaster rest := by
  simp [packRaster]

/-- With even rows, row-by-row packing coincides with packing the row-major
flattened pixel sequence. -/
theorem packRaster_eq_pack_flatten : ∀ rows : List (List Nat),
    (∀ r ∈ rows, r.length % 2 = 0) → packRaster rows = packPairs rows.flatten
  | [], _ => rfl
  | r :: rest, h => by
      rw [packRaster_cons, List.flatten_cons,
        packPairs_append_even r rest.flatten (h r (by simp)),
        packRaster_eq_pack_flatten rest (fun s hs => h s (by simp [hs]))]

theorem flatten_length_uniform {α : Type} (W : Nat) : ∀ rows : List (List α),
    (∀ r ∈ rows, r.length = W) → rows.flatten.length = rows.length * W
  | [], _ => by simp
  | r :: rest, h => by
      simp only [List.flatten_cons, List.length_append, List.length_cons,
        flatten_length_uniform W rest (fun s hs => h s (by simp [hs])),
        h r (by simp)]
      ring

/-- C1: packing a raster of even width `W` and height `H` whose pixels all
quantize to indices 0-7 yields `(W*H)/2` bytes; byte `i` carries the index
of flattened pixel `2*i` in its high nibble and of pixel `2*i+1` in its low
nibble; and the decoder's unpacking recovers exactly the original index
sequence. -/
theorem pack_unpack_roundtrip (rows : List (List Nat)) (W : Nat) (hW : W % 2 = 0)
    (hrows : ∀ r ∈ rows, r.length = W) (hidx : ∀ r ∈ rows, ∀ c ∈ r, c < 8) :
    (packRaster rows).length = W * rows.length / 2 ∧
    (∀ i, 2 * i + 1 < rows.flatten.length →
      (((packRaster rows).getD i 0) >>> 4) &&& 15 = rows.flatten.getD (2 * i) 0 ∧
      ((packRaster rows).getD i 0) &&& 15 = rows.flatten.getD (2 * i + 1) 0) ∧
    unpackBuffer (packRaster rows) = rows.flatten := by
  have heven : ∀ r ∈ rows, r.length % 2 = 0 := fun r hr => by rw [hrows r hr]; exact hW
  have hmem : ∀ c ∈ rows.flatten, c < 8 := by
    intro c hc
    rw [List.mem_flatten] at hc
    obtain ⟨r, hr, hcr⟩ := hc
    exact hidx r hr c hcr
  have hflen : rows.flatten.length = rows.length * W := flatten_length_uniform W rows hrows
  have hfleneven : rows.flatten.length % 2 = 0 := by
    rw [hflen, Nat.mul_mod, hW, Nat.mul_zero]
  rw [packRaster_eq_pack_flatten rows heven]
  refine ⟨?_, fun i hi => packPairs_nibbles rows.flatten i hmem hi,
    unpack_packPairs rows.flatten hmem hfleneven⟩
  rw [packPairs_length, hflen, Nat.mul_comm rows.length W]
  have hprodeven : (W * rows.length) % 2 = 0 := by
    rw [Nat.mul_mod, hW, Nat.zero_mul]
  omega

/-! ### Encoding a uniform raster at an exact palette color -/

/-- A `w×h` raster every pixel of which is `p`. -/
def uniformRaster (w h : Nat) (p : Pix) : List (List Pix) :=
  List.replicate h (List.replicate w p)

theorem getD_replicate_of_lt {α : Type} (a d : α) :
    ∀ (n i : Nat), i < n → (List.replicate n a).getD i d = a
  | 0, _, h => by omega
  | _ + 1, 0, _ => rfl
  | n + 1, i + 1, h => by
      simp only [List.replicate_succ, List.getD_cons_succ]
      exact getD_replicate_of_lt a d n i (by omega)

theorem headD_replicate {α : Type} (a d : α) (n : Nat) (h : 0 < n) :
    (List.replicate n a).headD d = a := by
  match n, h with
  | n + 1, _ => rfl

theorem packPairs_replicate : ∀ (k i : Nat),
    packPairs (List.replicate (2 * k) i) = List.replicate k (Nat.lor (i <<< 4) i)
  | 0, _ => rfl
  | k + 1, i => by
      rw [show 2 * (k + 1) = 2 * k + 1 + 1 from by ring, List.replicate_succ,
        List.replicate_succ, List.replicate_succ]
      simp only [packPairs, packPairs_replicate k i]

theorem flatten_replicate_replicate {α : Type} (v : α) :
    ∀ (a b : Nat), (List.replicate a (List.replicate b v)).flatten = List.replicate (a * b) v
  | 0, _ => by simp
  | a + 1, b => by
      rw [List.replicate_succ, List.flatten_cons, flatten_replicate_replicate v a b,
        show (a + 1) * b = b + a * b from by ring, List.replicate_add]

theorem range_map_const {α : Type} (n : Nat) (b : α) :
    (List.range n).map (fun _ => b) = List.replicate n b := by
  apply List.eq_replicate_iff.mpr
  constructor
  · simp
  · intro x hx
    simp only [List.mem_map] at hx
    obtain ⟨a, _, h2⟩ := hx
    exact h2.symm

/-- Encoding the uniform 800×480 raster at an exact palette color `p` of
index `i`: dithering produces zero error everywhere, every pixel quantizes
to `i`, and every packed byte carries `i` in both nibbles. -/
theorem convert_uniform_800_480 (p : Pix) (i : Nat) (hi : i < 8)
    (hpal : PALETTE.getD i (0, 0, 0) = p) :
    convert_png_to_epaper (uniformRaster 800 480 p)
      = some (List.replicate 192000 (Nat.lor (i <<< 4) i)) := by
  have hfcc : find_closest_color p = i := by
    rw [← hpal]
    exact fcc_palette_fixed i hi
  have hrange := palette_entry_range i hi
  rw [hpal] at hrange
  have hhead : (uniformRaster 800 480 p).headD [] = List.replicate 800 p :=
    headD_replicate _ _ 480 (by omega)
  have hcrop : cropTo (uniformRaster 800 480 p) 800 480 = uniformRaster 800 480 p := by
    unfold cropTo uniformRaster
    rw [List.take_replicate, List.map_replicate, List.take_replicate]
    simp
  have himg : ∀ y x, y < 480 → x < 800 →
      imgOfRows (uniformRaster 800 480 p) y x = toQ p := by
    intro y x hy hx
    unfold imgOfRows uniformRaster
    rw [getD_replicate_of_lt _ _ 480 y hy, getD_replicate_of_lt _ _ 800 x hx]
  have hfixQ : find_closest_colorQ (toQ p) = i := by
    rw [find_closest_colorQ_toQ, hfcc]
  have hpq : paletteQ i = toQ p := by
    unfold paletteQ
    rw [hpal]
  have hd : apply_floyd_steinberg_dithering 800 480 (imgOfRows (uniformRaster 800 480 p))
      = imgOfRows (uniformRaster 800 480 p) := by
    apply apply_fs_fixed
    intro y x hy hx
    rw [himg y x hy hx, hfixQ, hpq]
  have hout : outPix (toQ p) = p := outPix_int p hrange.1 hrange.2.1 hrange.2.2
  have hinner : ∀ y, y < 480 →
      ((List.range 800).map (fun x =>
        find_closest_color (outPix (apply_floyd_steinberg_dithering 800 480
          (imgOfRows (uniformRaster 800 480 p)) y x))))
      = List.replicate 800 i := by
    intro y hy
    rw [← range_map_const 800 i]
    apply List.map_congr_left
    intro x hx
    rw [hd, himg y x hy (List.mem_range.mp hx), hout, hfcc]
  have houter : ((List.range 480).map (fun y => (List.range 800).map (fun x =>
      find_closest_color (outPix (apply_floyd_steinberg_dithering 800 480
        (imgOfRows (uniformRaster 800 480 p)) y x)))))
      = List.replicate 480 (List.replicate 800 i) := by
    rw [← range_map_const 480 (List.replicate 800 i)]
    apply List.map_congr_left
    intro y hy
    exact hinner y (List.mem_range.mp hy)
  unfold convert_png_to_epaper
  rw [hhead, List.length_replicate, show (uniformRaster 800 480 p).length = 480 from
    List.length_replicate 480 _]
  rw [show validate_image_size 800 480 = some (800, 480, false) from by decide]
  simp only [Bool.false_eq_true, if_false, hcrop, houter]
  rw [show packRaster (List.replicate 480 (List.replicate 800 i))
        = List.replicate 192000 (Nat.lor (i <<< 4) i) from ?_]
  unfold packRaster
  rw [List.map_replicate, show (800 : Nat) = 2 * 400 from rfl, packPairs_replicate,
    flatten_replicate_replicate]

/-- C2: the uniform 800×480 white raster encodes to 192000 bytes all equal
to `0x11`, and the uniform 800×480 red raster encodes to 192000 bytes all
equal to `0x44`; dithering a raster already at an exact palette color
produces zero error everywhere. -/
theorem uniform_white_red_encoding :
    (convert_png_to_epaper (uniformRaster 800 480 (255, 255, 255))
        = some (List.replicate 192000 17) ∧
      (List.replicate 192000 (17 : Nat)).length = 192000 ∧
      ∀ b ∈ List.replicate 192000 (17 : Nat), b = 17) ∧
    (convert_png_to_epaper (uniformRaster 800 480 (191, 0, 0))
        = some (List.replicate 192000 68) ∧
      (List.replicate 192000 (68 : Nat)).length = 192000 ∧
      ∀ b ∈ List.replicate 192000 (68 : Nat), b = 68) := by
  refine ⟨⟨?_, List.length_replicate 192000 17, fun b hb => List.eq_of_mem_replicate hb⟩,
    ⟨?_, List.length_replicate 192000 68, fun b hb => List.eq_of_mem_replicate hb⟩⟩
  · have h := convert_uniform_800_480 (255, 255, 255) 1 (by omega) (by decide)
    rwa [show Nat.lor (1 <<< 4) 1 = 17 from by decide] at h
  · have h := convert_uniform_800_480 (191, 0, 0) 4 (by omega) (by decide)
    rwa [show Nat.lor (4 <<< 4) 4 = 68 from by decide] at h

/-- C3: each of the 8 palette colors quantizes to its own index; every pixel
of the dither engine's output is the palette color of the index chosen at
that pixel's visit (hence exactly one of the 8 palette colors); and the
packing pass's second quantization of the stored output returns that same
chosen index. -/
theorem quantizer_fixed_point_and_idempotent_requantization :
    (∀ i < 8, find_closest_color (PALETTE.getD i (0, 0, 0)) = i) ∧
    (∀ w h : Nat, ∀ img : Img, ∀ y x : Nat, y < h → x < w →
      apply_floyd_steinberg_dithering w h img y x
        = paletteQ (find_closest_colorQ (ditherUpTo w h img y x y x)) ∧
      ∃ j, j < 8 ∧ apply_floyd_steinberg_dithering w h img y x = paletteQ j) ∧
    (∀ v : RGBq, find_closest_color (outPix (paletteQ (find_closest_colorQ v)))
        = find_closest_colorQ v) :=
  ⟨fcc_palette_fixed,
   fun w h img y x hy hx =>
     ⟨apply_fs_at w h img y x hy hx, apply_fs_isPalette w h img y x hy hx⟩,
   requantize_choice⟩

/-- Witness for C3: the fixed point at index 0, the dither decomposition on
a 1×1 black raster, and requantization at mid-gray. -/
theorem quantizer_fixed_point_witness :
    (0 < 8 ∧ find_closest_color (PALETTE.getD 0 (0, 0, 0)) = 0) ∧
    (0 < 1 ∧ 0 < 1 ∧
      (apply_floyd_steinberg_dithering 1 1 (fun _ _ => (0, 0, 0)) 0 0
          = paletteQ (find_closest_colorQ (ditherUpTo 1 1 (fun _ _ => (0, 0, 0)) 0 0 0 0)) ∧
        ∃ j, j < 8 ∧ apply_floyd_steinberg_dithering 1 1 (fun _ _ => (0, 0, 0)) 0 0
          = paletteQ j)) ∧
    (find_closest_color (outPix (paletteQ
        (find_closest_colorQ ((128 : ℚ), (128 : ℚ), (128 : ℚ)))))
      = find_closest_colorQ ((128 : ℚ), (128 : ℚ), (128 : ℚ))) :=
  ⟨⟨by decide, quantizer_fixed_point_and_idempotent_requantization.1 0 (by decide)⟩,
   ⟨by decide, by decide,
    quantizer_fixed_point_and_idempotent_requantization.2.1 1 1 (fun _ _ => (0, 0, 0)) 0 0
      (by decide) (by decide)⟩,
   quantizer_fixed_point_and_idempotent_requantization.2.2
     ((128 : ℚ), (128 : ℚ), (128 : ℚ))⟩

/-- C4 counterexample: the code does not clamp after each error
distribution — it clamps once after the whole loop.  On the 1×2 raster
`[(128,128,128), (0,0,255)]` the working value read for quantization at
pixel `(0,1)` has blue channel `255 + (7/16)*100 = 298.75 > 255`. -/
theorem dither_read_out_of_range :
    255 < (ditherUpTo 2 1 (imgOfRows [[(128, 128, 128), (0, 0, 255)]]) 0 1 0 1).2.2 := by
  have hB : ditherUpTo 2 1 (imgOfRows [[(128, 128, 128), (0, 0, 255)]]) 0 1
      = ditherStep 2 1 (imgOfRows [[(128, 128, 128), (0, 0, 255)]]) 0 0 := rfl
  rw [hB]
  set img0 := imgOfRows [[(128, 128, 128), (0, 0, 255)]] with himg0
  have hstep : ditherStep 2 1 img0 0 0
      = addAt (upd img0 0 0 (paletteQ (find_closest_colorQ (img0 0 0)))) 0 1
          (scale (7 / 16) (subV (img0 0 0) (paletteQ (find_closest_colorQ (img0 0 0))))) := by
    unfold ditherStep
    norm_num
  rw [hstep, addAt_at, upd_ne (by omega)]
  have h00 : img0 0 0 = toQ (128, 128, 128) := rfl
  have h01 : img0 0 1 = toQ (0, 0, 255) := rfl
  have hq : find_closest_colorQ (toQ (128, 128, 128)) = 2 := by
    rw [find_closest_colorQ_toQ]
    decide
  rw [h00, h01, hq, show paletteQ 2 = toQ ((67 : ℤ), 138, 28) from rfl]
  simp only [toQ, subV, scale, addV]
  norm_num

/-- C4 amended: errors are accumulated without intermediate clamping (see
the counterexample); a single clamp to `[0,255]` is applied to the whole
raster after the loop, so every channel of every final output pixel lies in
`[0, 255]`. -/
theorem dither_output_clamped (w h : Nat) (img : Img) (y x : Nat) :
    (0 ≤ (outPix (apply_floyd_steinberg_dithering w h img y x)).1 ∧
      (outPix (apply_floyd_steinberg_dithering w h img y x)).1 ≤ 255) ∧
    (0 ≤ (outPix (apply_floyd_steinberg_dithering w h img y x)).2.1 ∧
      (outPix (apply_floyd_steinberg_dithering w h img y x)).2.1 ≤ 255) ∧
    (0 ≤ (outPix (apply_floyd_steinberg_dithering w h img y x)).2.2 ∧
      (outPix (apply_floyd_steinberg_dithering w h img y x)).2.2 ≤ 255) :=
  outPix_range (apply_floyd_steinberg_dithering w h img y x)

/-- Witness: the 2×2 index raster `[[1,2],[3,4]]` packs to two bytes `0x12`,
`0x34`, and unpacking recovers `[1,2,3,4]`. -/
theorem pack_unpack_roundtrip_witness :
    (2 % 2 = 0 ∧ (∀ r ∈ [[1, 2], [3, 4]], List.length r = 2) ∧
      (∀ r ∈ [[1, 2], [3, 4]], ∀ c ∈ r, c < 8)) ∧
    ((packRaster [[1, 2], [3, 4]]).length = 2 * ([[1, 2], [3, 4]] : List (List Nat)).length / 2 ∧
    (∀ i, 2 * i + 1 < ([[1, 2], [3, 4]] : List (List Nat)).flatten.length →
      (((packRaster [[1, 2], [3, 4]]).getD i 0) >>> 4) &&& 15
        = ([[1, 2], [3, 4]] : List (List Nat)).flatten.getD (2 * i) 0 ∧
      ((packRaster [[1, 2], [3, 4]]).getD i 0) &&& 15
        = ([[1, 2], [3, 4]] : List (List Nat)).flatten.getD (2 * i + 1) 0) ∧
    unpackBuffer (packRaster [[1, 2], [3, 4]]) = ([[1, 2], [3, 4]] : List (List Nat)).flatten) :=
  ⟨⟨by decide, by decide, by decide⟩,
   pack_unpack_roundtrip [[1, 2], [3, 4]] 2 (by decide) (by decide) (by decide)⟩

/-! ### Resolution negotiation: accepted and rejected inputs -/

/-- Every target width returned by `validate_image_size` is one of the
supported widths, hence even. -/
theorem validate_width_even (w h tw th : Nat) (rot : Bool)
    (hv : validate_image_size w h = some (tw, th, rot)) : tw % 2 = 0 := by
  unfold validate_image_size SUPPORTED_RESOLUTIONS at hv
  simp only [validateAux] at hv
  split_ifs at hv <;> simp at hv <;> omega

/-- A rotation is signalled only for the exact swap of a supported
resolution, and the target is that supported resolution. -/
theorem validate_rotated (w h tw th : Nat)
    (hv : validate_image_size w h = some (tw, th, true)) :
    (tw, th) ∈ SUPPORTED_RESOLUTIONS ∧ w = th ∧ h = tw := by
  unfold validate_image_size SUPPORTED_RESOLUTIONS at hv
  simp only [validateAux] at hv
  split_ifs at hv <;> simp at hv
  all_goals exact ⟨by rw [← hv.1, ← hv.2]; decide, by omega, by omega⟩

/-- Input dimensions that match no supported pair, no swapped supported
pair, and no supported width are rejected. -/
theorem validate_unsupported (w h : Nat)
    (hcond : ∀ p ∈ SUPPORTED_RESOLUTIONS, ¬(w = p.2 ∧ h = p.1) ∧ w ≠ p.1) :
    validate_image_size w h = none := by
  have h1 := hcond (800, 480) (by decide)
  have h2 := hcond (640, 400) (by decide)
  have h3 := hcond (600, 448) (by decide)
  unfold validate_image_size SUPPORTED_RESOLUTIONS
  simp only [validateAux]
  split_ifs <;> first | rfl | (exfalso; omega)

theorem rotateCW_dims (rows : List (List Pix)) :
    (rotateCW rows).length = (rows.headD []).length ∧
    ∀ r ∈ rotateCW rows, r.length = rows.length := by
  unfold rotateCW
  refine ⟨by simp, fun r hr => ?_⟩
  rw [List.mem_map] at hr
  obtain ⟨i, _, hi⟩ := hr
  rw [← hi]
  simp

theorem headD_mem {α : Type} (l : List α) (d : α) (h : l ≠ []) : l.headD d ∈ l := by
  cases l with
  | nil => exact absurd rfl h
  | cons a rest => exact List.mem_cons_self a rest

/-- The packed buffer of any accepted raster has exactly `tw*th/2` bytes. -/
theorem convert_accepted_length (rows : List (List Pix)) (tw th : Nat) (rot : Bool)
    (hv : validate_image_size (rows.headD []).length rows.length = some (tw, th, rot)) :
    ∃ buf, convert_png_to_epaper rows = some buf ∧ buf.length = tw * th / 2 := by
  unfold convert_png_to_epaper
  rw [hv]
  refine ⟨_, rfl, ?_⟩
  have heven := validate_width_even _ _ tw th rot hv
  set f : Nat → Nat → Nat := fun y x => find_closest_color (outPix
    (apply_floyd_steinberg_dithering tw th
      (imgOfRows (cropTo (if rot then rotateCW rows else rows) tw th)) y x)) with hf
  have hrlen : ∀ r ∈ (List.range th).map (fun y => (List.range tw).map (f y)),
      r.length = tw := by
    intro r hr
    rw [List.mem_map] at hr
    obtain ⟨y, _, hy⟩ := hr
    rw [← hy]
    simp
  have hplen : ∀ r ∈ ((List.range th).map (fun y => (List.range tw).map (f y))).map packPairs,
      r.length = (tw + 1) / 2 := by
    intro r hr
    rw [List.mem_map] at hr
    obtain ⟨s, hs, hsr⟩ := hr
    rw [← hsr, packPairs_length, hrlen s hs]
  have hlen : (packRaster ((List.range th).map (fun y => (List.range tw).map (f y)))).length
      = th * ((tw + 1) / 2) := by
    unfold packRaster
    rw [flatten_length_uniform ((tw + 1) / 2) _ hplen]
    simp
  rw [hlen]
  obtain ⟨k, hk⟩ : ∃ k, tw = 2 * k := ⟨tw / 2, by omega⟩
  subst hk
  rw [show (2 * k + 1) / 2 = k from by omega, Nat.mul_assoc,
    Nat.mul_div_cancel_left (k * th) (by omega : 0 < 2), Nat.mul_comm]

/-- C5: a 480×800 input is accepted with a 90° clockwise rotation to the
800×480 target, rotation turns an 800-row × 480-column raster into a
480-row × 800-column one, and every accepted raster encodes to a buffer of
exactly `(target width × target height)/2` bytes. -/
theorem rotation_and_buffer_size :
    validate_image_size 480 800 = some (800, 480, true) ∧
    (∀ rows : List (List Pix), rows.length = 800 → (∀ r ∈ rows, r.length = 480) →
      (rotateCW rows).length = 480 ∧ ∀ r ∈ rotateCW rows, r.length = 800) ∧
    (∀ rows : List (List Pix), ∀ tw th : Nat, ∀ rot : Bool,
      validate_image_size (rows.headD []).length rows.length = some (tw, th, rot) →
      ∃ buf, convert_png_to_epaper rows = some buf ∧ buf.length = tw * th / 2) := by
  refine ⟨by decide, fun rows hlen hr => ?_, fun rows tw th rot hv =>
    convert_accepted_length rows tw th rot hv⟩
  have hd := rotateCW_dims rows
  have hhead : (rows.headD []).length = 480 :=
    hr (rows.headD []) (headD_mem rows [] (by intro hnil; rw [hnil] at hlen; simp at hlen))
  exact ⟨hd.1.trans hhead, fun r hrr => (hd.2 r hrr).trans hlen⟩

/-- Witness for C5: the uniform 480×800 black raster is rotated and encodes
to 192000 bytes. -/
theorem rotation_and_buffer_size_witness :
    ((uniformRaster 480 800 (0, 0, 0)).length = 800 ∧
      (∀ r ∈ uniformRaster 480 800 (0, 0, 0), r.length = 480) ∧
      ((rotateCW (uniformRaster 480 800 (0, 0, 0))).length = 480 ∧
        ∀ r ∈ rotateCW (uniformRaster 480 800 (0, 0, 0)), r.length = 800)) ∧
    (validate_image_size ((uniformRaster 480 800 (0, 0, 0)).headD []).length
        (uniformRaster 480 800 (0, 0, 0)).length = some (800, 480, true) ∧
      ∃ buf, convert_png_to_epaper (uniformRaster 480 800 (0, 0, 0)) = some buf ∧
        buf.length = 800 * 480 / 2) := by
  have hlen : (uniformRaster 480 800 ((0 : ℤ), (0 : ℤ), (0 : ℤ))).length = 800 :=
    List.length_replicate 800 _
  have hmem : ∀ r ∈ uniformRaster 480 800 ((0 : ℤ), (0 : ℤ), (0 : ℤ)), r.length = 480 :=
    fun r hr => by rw [List.eq_of_mem_replicate hr]; exact List.length_replicate 480 _
  have hhead : ((uniformRaster 480 800 ((0 : ℤ), (0 : ℤ), (0 : ℤ))).headD []).length = 480 := by
    unfold uniformRaster
    rw [headD_replicate _ _ 800 (by omega)]
    exact List.length_replicate 480 _
  have hval : validate_image_size
      ((uniformRaster 480 800 ((0 : ℤ), (0 : ℤ), (0 : ℤ))).headD []).length
      (uniformRaster 480 800 ((0 : ℤ), (0 : ℤ), (0 : ℤ))).length = some (800, 480, true) := by
    rw [hhead, hlen]
    decide
  exact ⟨⟨hlen, hmem, rotation_and_buffer_size.2.1 _ hlen hmem⟩,
    ⟨hval, rotation_and_buffer_size.2.2 _ 800 480 true hval⟩⟩

/-- C7: dimensions matching no supported pair, no swapped pair and no
supported width fail resolution negotiation, and the encoder returns the
failure result without producing a buffer; there is no fallback. -/
theorem unsupported_resolution_fails (w h : Nat)
    (hcond : ∀ p ∈ SUPPORTED_RESOLUTIONS, ¬(w = p.2 ∧ h = p.1) ∧ w ≠ p.1) :
    validate_image_size w h = none ∧
    ∀ rows : List (List Pix), (rows.headD []).length = w → rows.length = h →
      convert_png_to_epaper rows = none := by
  have hnone := validate_unsupported w h hcond
  refine ⟨hnone, fun rows hw hh => ?_⟩
  unfold convert_png_to_epaper
  rw [hw, hh, hnone]

/-- Witness for C7: 100×100 is rejected. -/
theorem unsupported_resolution_fails_witness :
    (∀ p ∈ SUPPORTED_RESOLUTIONS, ¬(100 = p.2 ∧ 100 = p.1) ∧ 100 ≠ p.1) ∧
    (validate_image_size 100 100 = none ∧
      ∀ rows : List (List Pix), (rows.headD []).length = 100 → rows.length = 100 →
        convert_png_to_epaper rows = none) :=
  ⟨by decide, unsupported_resolution_fails 100 100 (by decide)⟩


/-! ### Decode-side resolution inference -/

/-- Any detected resolution is supported and its expected byte count equals
the file size. -/
theorem detect_spec (n : Nat) (p : Nat × Nat) (hd : detect_resolution n = some p) :
    p ∈ SUPPORTED_RESOLUTIONS ∧ n = p.1 * p.2 / 2 := by
  obtain ⟨p1, p2⟩ := p
  unfold detect_resolution SUPPORTED_RESOLUTIONS at hd
  simp only [detectAux] at hd
  split_ifs at hd <;> simp at hd
  all_goals exact ⟨by rw [← hd.1, ← hd.2]; decide, by rw [← hd.1, ← hd.2]; omega⟩

/-- Each supported resolution is detected from its own expected byte
count (the three byte counts are pairwise distinct, so the first match in
the fixed scan order is the right one). -/
theorem detect_supported (p : Nat × Nat) (hp : p ∈ SUPPORTED_RESOLUTIONS) :
    detect_resolution (p.1 * p.2 / 2) = some p := by
  fin_cases hp <;> decide

/-- C6: resolution inference compares the buffer length with `(W*H)/2` over
the supported list in order; with no match and no override, decoding fails
with no output raster; with an explicit override, decoding always proceeds,
and the mismatch warning fires exactly when the length differs from the
override's expected size. -/
theorem resolution_inference_and_failure :
    (∀ (n : Nat) (p : Nat × Nat), detect_resolution n = some p →
      p ∈ SUPPORTED_RESOLUTIONS ∧ n = p.1 * p.2 / 2) ∧
    (∀ p ∈ SUPPORTED_RESOLUTIONS, detect_resolution (p.1 * p.2 / 2) = some p) ∧
    (∀ buf : List Nat, detect_resolution buf.length = none →
      convert_bin_to_png buf none none = none) ∧
    (∀ (buf : List Nat) (w h : Nat),
      convert_bin_to_png buf (some w) (some h)
        = some (rotateCCW (unpackRaster buf w h)) ∧
      (sizeWarning buf.length w h = true ↔ buf.length ≠ w * h / 2)) := by
  refine ⟨detect_spec, detect_supported, fun buf hd => ?_, fun buf w h =>
    ⟨rfl, by unfold sizeWarning; exact decide_eq_true_iff⟩⟩
  unfold convert_bin_to_png
  rw [show resolveResolution buf.length none none = none from by
    unfold resolveResolution; rw [← hd]]

/-- Witness for C6: length 192000 detects (800,480); a 100-byte buffer is
rejected without override; an override of 3×4 on a 1-byte buffer decodes
with a size warning. -/
theorem resolution_inference_witness :
    (detect_resolution 192000 = some (800, 480) ∧
      (800, 480) ∈ SUPPORTED_RESOLUTIONS ∧ 192000 = (800, 480).1 * (800, 480).2 / 2) ∧
    (detect_resolution (List.replicate 100 (0 : Nat)).length = none ∧
      convert_bin_to_png (List.replicate 100 (0 : Nat)) none none = none) ∧
    (convert_bin_to_png [17] (some 3) (some 4)
        = some (rotateCCW (unpackRaster [17] 3 4)) ∧
      (sizeWarning ([17] : List Nat).length 3 4 = true ↔
        ([17] : List Nat).length ≠ 3 * 4 / 2)) :=
  ⟨⟨by decide, resolution_inference_and_failure.1 192000 (800, 480) (by decide)⟩,
   ⟨by decide, resolution_inference_and_failure.2.2.1 (List.replicate 100 0) (by decide)⟩,
   resolution_inference_and_failure.2.2.2 [17] 3 4⟩

/-! ### The decoder only ever produces palette colors -/

theorem fixIdx_lt (i : Nat) : fixIdx i < 8 := by
  unfold fixIdx
  split
  · omega
  · rename_i hlt
    simp only [PALETTE, List.length_cons, List.length_nil, ge_iff_le, not_le] at hlt
    omega

theorem unpackPixel_palette (buf : List Nat) (w y x : Nat) :
    ∃ j, j < 8 ∧ unpackPixel buf w y x = PALETTE.getD j (0, 0, 0) := by
  simp only [unpackPixel]
  split
  · exact ⟨_, fixIdx_lt _, rfl⟩
  · exact ⟨0, by omega, rfl⟩

theorem getD_entry_palette (rows : List (List Pix))
    (hrows : ∀ r ∈ rows, ∀ p ∈ r, ∃ j, j < 8 ∧ p = PALETTE.getD j (0, 0, 0)) (a b : Nat) :
    ∃ j, j < 8 ∧ (rows.getD a []).getD b (0, 0, 0) = PALETTE.getD j (0, 0, 0) := by
  by_cases ha : a < rows.length
  · have hmem : rows.getD a [] ∈ rows := by
      rw [List.getD_eq_getElem rows [] ha]
      exact List.getElem_mem ha
    by_cases hb : b < (rows.getD a []).length
    · refine hrows _ hmem _ ?_
      rw [List.getD_eq_getElem _ _ hb]
      exact List.getElem_mem hb
    · refine ⟨0, by omega, ?_⟩
      rw [List.getD_eq_default _ _ (by omega)]
      rfl
  · refine ⟨0, by omega, ?_⟩
    have houter : rows.getD a [] = [] := List.getD_eq_default rows [] (by omega)
    rw [houter]
    rfl

theorem unpackRaster_entries (buf : List Nat) (w h : Nat) :
    ∀ r ∈ unpackRaster buf w h, ∀ p ∈ r, ∃ j, j < 8 ∧ p = PALETTE.getD j (0, 0, 0) := by
  intro r hr p hp
  unfold unpackRaster at hr
  rw [List.mem_map] at hr
  obtain ⟨y, _, hy⟩ := hr
  rw [← hy, List.mem_map] at hp
  obtain ⟨x, _, hx⟩ := hp
  rw [← hx]
  exact unpackPixel_palette buf w y x

theorem rotateCCW_entries (rows : List (List Pix))
    (hrows : ∀ r ∈ rows, ∀ p ∈ r, ∃ j, j < 8 ∧ p = PALETTE.getD j (0, 0, 0)) :
    ∀ r ∈ rotateCCW rows, ∀ p ∈ r, ∃ j, j < 8 ∧ p = PALETTE.getD j (0, 0, 0) := by
  intro r hr p hp
  unfold rotateCCW at hr
  rw [List.mem_map] at hr
  obtain ⟨i, _, hi⟩ := hr
  rw [← hi, List.mem_map] at hp
  obtain ⟨j, _, hj⟩ := hp
  rw [← hj]
  exact getD_entry_palette rows hrows j _

theorem convert_bin_to_png_some (buf : List Nat) (ow oh : Option Nat)
    (out : List (List Pix)) (h : convert_bin_to_png buf ow oh = some out) :
    ∃ w hh, out = rotateCCW (unpackRaster buf w hh) := by
  unfold convert_bin_to_png at h
  cases hres : resolveResolution buf.length ow oh with
  | none =>
      rw [hres] at h
      exact absurd h (by simp)
  | some p =>
      rw [hres] at h
      exact ⟨p.1, p.2, (Option.some.inj h).symm⟩

/-- C8: every pixel of any raster the decoder produces — for any input
buffer, not only encoder outputs — is exactly one of the 8 palette colors,
and any nibble that is not a valid palette index is replaced by index 0
instead of causing an out-of-range palette access. -/
theorem decoder_palette_closure :
    (∀ i, 8 ≤ i → fixIdx i = 0) ∧
    (∀ (buf : List Nat) (ow oh : Option Nat) (out : List (List Pix)),
      convert_bin_to_png buf ow oh = some out →
      ∀ r ∈ out, ∀ p ∈ r, ∃ j, j < 8 ∧ p = PALETTE.getD j (0, 0, 0)) := by
  constructor
  · intro i hi
    unfold fixIdx
    exact if_pos (by simpa [PALETTE] using hi)
  · intro buf ow oh out hout
    obtain ⟨w, hh, rfl⟩ := convert_bin_to_png_some buf ow oh out hout
    exact rotateCCW_entries _ (unpackRaster_entries buf w hh)

/-- Witness for C8: the byte `0x89` has both nibbles invalid; decoding it
with a 2×1 override yields only palette colors. -/
theorem decoder_palette_closure_witness :
    (8 ≤ 9 ∧ fixIdx 9 = 0) ∧
    (convert_bin_to_png [137] (some 2) (some 1)
        = some (rotateCCW (unpackRaster [137] 2 1)) ∧
      ∀ r ∈ rotateCCW (unpackRaster [137] 2 1), ∀ p ∈ r,
        ∃ j, j < 8 ∧ p = PALETTE.getD j (0, 0, 0)) :=
  ⟨⟨by omega, decoder_palette_closure.1 9 (by omega)⟩,
   ⟨rfl, decoder_palette_closure.2 [137] (some 2) (some 1) _ rfl⟩⟩


/-! ### Decoder orientation versus encoder rotation -/

theorem rotateCCW_dims (rows : List (List Pix)) :
    (rotateCCW rows).length = (rows.headD []).length ∧
    ∀ r ∈ rotateCCW rows, r.length = rows.length := by
  unfold rotateCCW
  refine ⟨by simp, fun r hr => ?_⟩
  rw [List.mem_map] at hr
  obtain ⟨i, _, hi⟩ := hr
  rw [← hi]
  simp

theorem unpackRaster_dims (buf : List Nat) (w h : Nat) (hh : 0 < h) :
    (unpackRaster buf w h).length = h ∧ ((unpackRaster buf w h).headD []).length = w := by
  unfold unpackRaster
  refine ⟨by simp, ?_⟩
  obtain ⟨m, rfl⟩ : ∃ m, h = m + 1 := ⟨h - 1, by omega⟩
  rw [List.range_succ_eq_map]
  simp

theorem resolveResolution_none_none (n : Nat) :
    resolveResolution n none none = detect_resolution n := rfl

theorem detect_192000 : detect_resolution 192000 = some (800, 480) := by
  decide

/-- Resolving the resolution determines the decoder output. -/
theorem convert_bin_to_png_resolved (buf : List Nat) (ow oh : Option Nat) (w h : Nat)
    (hres : resolveResolution buf.length ow oh = some (w, h)) :
    convert_bin_to_png buf ow oh = some (rotateCCW (unpackRaster buf w h)) := by
  unfold convert_bin_to_png
  rw [hres]

/-- C9 counterexample: the decoder rotates 90° unconditionally, even when
the encoder applied no rotation.  Encoding the landscape uniform white
800×480 raster (480 rows of 800 pixels) and decoding the result yields a
raster with 800 rows of 480 pixels — not the original orientation. -/
theorem decode_rotation_not_inverse :
    convert_png_to_epaper (uniformRaster 800 480 (255, 255, 255))
      = some (List.replicate 192000 17) ∧
    convert_bin_to_png (List.replicate 192000 17) none none
      = some (rotateCCW (unpackRaster (List.replicate 192000 17) 800 480)) ∧
    (rotateCCW (unpackRaster (List.replicate 192000 17) 800 480)).length = 800 ∧
    (∀ r ∈ rotateCCW (unpackRaster (List.replicate 192000 17) 800 480), r.length = 480) ∧
    (uniformRaster 800 480 ((255 : ℤ), (255 : ℤ), (255 : ℤ))).length = 480 ∧
    (800 : Nat) ≠ 480 := by
  have hres : resolveResolution (List.replicate 192000 (17 : Nat)).length none none
      = some (800, 480) := by
    rw [resolveResolution_none_none, List.length_replicate 192000 17]
    exact detect_192000
  have hdims := unpackRaster_dims (List.replicate 192000 (17 : Nat)) 800 480 (by omega)
  have hrot := rotateCCW_dims (unpackRaster (List.replicate 192000 (17 : Nat)) 800 480)
  refine ⟨?_, ?_, ?_, ?_, List.length_replicate 480 _, by omega⟩
  · have h := convert_uniform_800_480 (255, 255, 255) 1 (by omega) (by decide)
    rwa [show Nat.lor (1 <<< 4) 1 = 17 from by decide] at h
  · exact convert_bin_to_png_resolved _ none none 800 480 hres
  · rw [hrot.1, hdims.2]
  · intro r hr
    rw [hrot.2 r hr, hdims.1]

/-- C9 amended: the decoder's unconditional 90° counterclockwise rotation
inverts the encoder's rotation exactly for the inputs the negotiator
rotated: for every portrait input accepted with `rotate = true`, decoding
the encoded buffer restores the input's own dimensions. -/
theorem decode_inverts_encode_rotation (rows : List (List Pix)) (w h tw th : Nat)
    (hw : (rows.headD []).length = w) (hh : rows.length = h)
    (hv : validate_image_size w h = some (tw, th, true)) :
    ∃ buf out, convert_png_to_epaper rows = some buf ∧
      convert_bin_to_png buf none none = some out ∧
      out.length = h ∧ ∀ r ∈ out, r.length = w := by
  have hsup := validate_rotated w h tw th hv
  have hth : 0 < th := by
    have hmem := hsup.1
    simp only [SUPPORTED_RESOLUTIONS, List.mem_cons, List.not_mem_nil, or_false,
      Prod.mk.injEq] at hmem
    omega
  have hv' : validate_image_size (rows.headD []).length rows.length
      = some (tw, th, true) := by
    rw [hw, hh]
    exact hv
  obtain ⟨buf, hbuf, hlen⟩ := convert_accepted_length rows tw th true hv'
  have hdet : detect_resolution buf.length = some (tw, th) := by
    rw [hlen]
    exact detect_supported (tw, th) hsup.1
  have hdims := unpackRaster_dims buf tw th hth
  have hrot := rotateCCW_dims (unpackRaster buf tw th)
  refine ⟨buf, rotateCCW (unpackRaster buf tw th), hbuf, ?_, ?_, ?_⟩
  · exact convert_bin_to_png_resolved buf none none tw th
      ((resolveResolution_none_none buf.length).trans hdet)
  · rw [hrot.1, hdims.2]
    omega
  · intro r hr
    rw [hrot.2 r hr, hdims.1]
    omega

/-- Witness for C9: the uniform 480×800 black raster (800 rows of 480
pixels) round-trips to a raster with 800 rows of 480 pixels. -/
theorem decode_inverts_encode_rotation_witness :
    (((uniformRaster 480 800 ((0 : ℤ), (0 : ℤ), (0 : ℤ))).headD []).length = 480 ∧
      (uniformRaster 480 800 ((0 : ℤ), (0 : ℤ), (0 : ℤ))).length = 800 ∧
      validate_image_size 480 800 = some (800, 480, true)) ∧
    (∃ buf out, convert_png_to_epaper (uniformRaster 480 800 ((0 : ℤ), (0 : ℤ), (0 : ℤ)))
        = some buf ∧
      convert_bin_to_png buf none none = some out ∧
      out.length = 800 ∧ ∀ r ∈ out, r.length = 480) := by
  have hhead : ((uniformRaster 480 800 ((0 : ℤ), (0 : ℤ), (0 : ℤ))).headD []).length = 480 := by
    unfold uniformRaster
    rw [headD_replicate _ _ 800 (by omega)]
    exact List.length_replicate 480 _
  have hlen : (uniformRaster 480 800 ((0 : ℤ), (0 : ℤ), (0 : ℤ))).length = 800 :=
    List.length_replicate 800 _
  exact ⟨⟨hhead, hlen, by decide⟩,
    decode_inverts_encode_rotation _ 480 800 800 480 hhead hlen (by decide)⟩

/-! ### Color-usage statistics -/

theorem sum_bump (f : Nat → Nat) (c : Nat) (hc : c < 8) :
    ∑ i in Finset.range 8, (if i = c then f i + 1 else f i)
      = (∑ i in Finset.range 8, f i) + 1 := by
  have hsplit : ∀ i, (if i = c then f i + 1 else f i) = f i + (if i = c then 1 else 0) := by
    intro i
    split <;> simp
  rw [Finset.sum_congr rfl (fun i _ => hsplit i), Finset.sum_add_distrib,
    Finset.sum_ite_eq' (Finset.range 8) c (fun _ => 1)]
  simp [Finset.mem_range.mpr hc]

theorem addByteCounts_sum (counts : Nat → Nat) (b : Nat)
    (hvalid : (b >>> 4) &&& 15 < 8 ∧ b &&& 15 < 8) :
    ∑ i in Finset.range 8, addByteCounts counts b i
      = (∑ i in Finset.range 8, counts i) + 2 := by
  simp only [addByteCounts]
  rw [if_pos (show (b >>> 4) &&& 15 < PALETTE.length by simpa [PALETTE] using hvalid.1),
    if_pos (show b &&& 15 < PALETTE.length by simpa [PALETTE] using hvalid.2)]
  rw [sum_bump _ _ hvalid.2, sum_bump _ _ hvalid.1]

theorem foldl_counts_sum : ∀ (buf : List Nat) (counts : Nat → Nat),
    (∀ b ∈ buf, (b >>> 4) &&& 15 < 8 ∧ b &&& 15 < 8) →
    ∑ i in Finset.range 8, (buf.foldl addByteCounts counts) i
      = (∑ i in Finset.range 8, counts i) + 2 * buf.length
  | [], _, _ => by simp
  | b :: rest, counts, hv => by
      rw [List.foldl_cons,
        foldl_counts_sum rest (addByteCounts counts b)
          (fun d hd => hv d (List.mem_cons_of_mem b hd)),
        addByteCounts_sum counts b (hv b (List.mem_cons_self b rest))]
      simp only [List.length_cons]
      ring

/-- When every nibble of the buffer is a valid palette index (as in every
encoder-produced buffer), the counts sum to twice the byte count. -/
theorem totalPixels_of_valid (buf : List Nat)
    (hvalid : ∀ b ∈ buf, (b >>> 4) &&& 15 < 8 ∧ b &&& 15 < 8) :
    totalPixels buf = 2 * buf.length := by
  unfold totalPixels colorCounts
  rw [show PALETTE.length = 8 from rfl, foldl_counts_sum buf (fun _ => 0) hvalid]
  simp

theorem percentageSum_of_valid (buf : List Nat) (hpos : 0 < totalPixels buf) :
    percentageSum buf = 100 := by
  unfold percentageSum
  have hT : ((totalPixels buf : ℚ)) ≠ 0 := Nat.cast_ne_zero.mpr (by omega)
  have hterm : ∀ i ∈ Finset.range PALETTE.length,
      (if 0 < colorCounts buf i
        then (colorCounts buf i : ℚ) / (totalPixels buf : ℚ) * 100 else 0)
      = (colorCounts buf i : ℚ) * (100 / (totalPixels buf : ℚ)) := by
    intro i _
    split
    · ring
    · rename_i hz
      rw [show colorCounts buf i = 0 from by omega]
      simp
  rw [Finset.sum_congr rfl hterm, ← Finset.sum_mul,
    show (∑ i in Finset.range PALETTE.length, (colorCounts buf i : ℚ))
      = ((totalPixels buf : ℚ)) from by unfold totalPixels; rw [Nat.cast_sum]]
  field_simp

/-- C10 counterexample: the statistics loop skips nibbles that are not
valid palette indices.  A 192000-byte buffer of `0x88` decodes at the
800×480 resolution, yet its per-color counts sum to 0, not 800×480, and the
reported percentages sum to 0, not 100. -/
theorem histogram_miscount :
    detect_resolution (List.replicate 192000 (136 : Nat)).length = some (800, 480) ∧
    totalPixels (List.replicate 192000 (136 : Nat)) = 0 ∧
    (0 : Nat) ≠ 800 * 480 ∧
    percentageSum (List.replicate 192000 (136 : Nat)) = 0 ∧ (0 : ℚ) ≠ 100 := by
  have hstep : ∀ counts : Nat → Nat, addByteCounts counts 136 = counts := by
    intro counts
    simp only [addByteCounts]
    rw [if_neg (by decide), if_neg (by decide)]
  have hfold : ∀ (n : Nat) (counts : Nat → Nat),
      (List.replicate n (136 : Nat)).foldl addByteCounts counts = counts := by
    intro n
    induction n with
    | zero => intro counts; rfl
    | succ m ih =>
        intro counts
        rw [List.replicate_succ, List.foldl_cons, hstep]
        exact ih counts
  have hcounts : colorCounts (List.replicate 192000 (136 : Nat)) = fun _ => 0 :=
    hfold 192000 (fun _ => 0)
  refine ⟨by rw [List.length_replicate 192000 136]; exact detect_192000, ?_, by omega, ?_,
    by norm_num⟩
  · unfold totalPixels
    rw [hcounts]
    simp
  · unfold percentageSum
    rw [hcounts]
    simp

/-- C10 amended: for every buffer whose length matches a detected supported
resolution and whose nibbles are all valid palette indices (in particular
every encoder-produced buffer), the per-color counts sum to exactly
`width*height` and the reported percentages sum to exactly 100. -/
theorem histogram_sum (buf : List Nat) (w h : Nat)
    (hd : detect_resolution buf.length = some (w, h))
    (hvalid : ∀ b ∈ buf, (b >>> 4) &&& 15 < 8 ∧ b &&& 15 < 8) :
    totalPixels buf = w * h ∧ percentageSum buf = 100 := by
  have hspec := detect_spec buf.length (w, h) hd
  have hmem := hspec.1
  simp only [SUPPORTED_RESOLUTIONS, List.mem_cons, List.not_mem_nil, or_false,
    Prod.mk.injEq] at hmem
  have htot : totalPixels buf = 2 * buf.length := totalPixels_of_valid buf hvalid
  have hwh : totalPixels buf = w * h := by
    rw [htot]
    have hlen := hspec.2
    rcases hmem with ⟨hw, hh⟩ | ⟨hw, hh⟩ | ⟨hw, hh⟩ <;> subst hw <;> subst hh <;> omega
  refine ⟨hwh, percentageSum_of_valid buf ?_⟩
  rw [hwh]
  rcases hmem with ⟨hw, hh⟩ | ⟨hw, hh⟩ | ⟨hw, hh⟩ <;> subst hw <;> subst hh <;> omega

/-- Witness for C10: the all-white encoder output at 800×480. -/
theorem histogram_sum_witness :
    (detect_resolution (List.replicate 192000 (17 : Nat)).length = some (800, 480) ∧
      (∀ b ∈ List.replicate 192000 (17 : Nat), (b >>> 4) &&& 15 < 8 ∧ b &&& 15 < 8)) ∧
    (totalPixels (List.replicate 192000 (17 : Nat)) = 800 * 480 ∧
      percentageSum (List.replicate 192000 (17 : Nat)) = 100) := by
  have hd : detect_resolution (List.replicate 192000 (17 : Nat)).length = some (800, 480) := by
    rw [List.length_replicate 192000 17]
    exact detect_192000
  have hv : ∀ b ∈ List.replicate 192000 (17 : Nat), (b >>> 4) &&& 15 < 8 ∧ b &&& 15 < 8 := by
    intro b hb
    rw [List.eq_of_mem_replicate hb]
    decide
  exact ⟨⟨hd, hv⟩, histogram_sum (List.replicate 192000 17) 800 480 hd hv⟩


end SmartDashboard
